import Mathlib

/-!
Verification of the music-theory engine (`src/utils/music-theory.ts`).

Notes are the ad-hoc strings of the source (`"C4"`, `"Db-1"`, `"F##5"`).
The embedding follows the final revision of the source file: `parseNote`,
`getNoteIndex`, `getNoteFromIndex`, `spellNote`, `transpose`,
`getScaleNotes`, `applyGenericInversion`, `getDiatonicChordType`,
`detectChordName` and `getDiatonicChord`.  JavaScript's truncating `%` is
`Int.tmod`, `Math.floor` division is `Int.fdiv`, and number-to-string
conversion is modelled by an explicit decimal renderer `intToStr`.
-/

namespace MusicTheory

/-! ### Decimal rendering and parsing of integers (JS number-to-string and parseInt) -/

def digitChar (d : Nat) : Char :=
  match d with
  | 0 => '0' | 1 => '1' | 2 => '2' | 3 => '3' | 4 => '4'
  | 5 => '5' | 6 => '6' | 7 => '7' | 8 => '8' | _ => '9'

def isDigitChar (c : Char) : Bool :=
  c ∈ ['0', '1', '2', '3', '4', '5', '6', '7', '8', '9']

def natDigitsGo (fuel n : Nat) : List Char :=
  match fuel with
  | 0 => []
  | f + 1 => if n < 10 then [digitChar n] else natDigitsGo f (n / 10) ++ [digitChar (n % 10)]

def natDigits (n : Nat) : List Char := natDigitsGo (n + 1) n

def digitsToNat (cs : List Char) : Nat :=
  cs.foldl (fun acc c => 10 * acc + (c.toNat - 48)) 0

def intToStr (i : Int) : String :=
  if i < 0 then "-" ++ String.mk (natDigits i.natAbs) else String.mk (natDigits i.toNat)

def parseDigits (cs : List Char) : Option Nat :=
  if cs.isEmpty then none
  else if cs.all isDigitChar then some (digitsToNat cs) else none

/-- The optional-octave part of the note grammar: empty, or `-?\d+` to the end. -/
def parseOctTail (cs : List Char) : Option (Option Int) :=
  match cs with
  | [] => some none
  | c :: rest =>
    if c = '-' then (parseDigits rest).map fun n => some (-(Int.ofNat n))
    else (parseDigits cs).map fun n => some (Int.ofNat n)

theorem digitChar_spec : ∀ d ∈ List.range 10,
    isDigitChar (digitChar d) = true ∧ (digitChar d).toNat - 48 = d ∧
    digitChar d ≠ '-' ∧ digitChar d ≠ '#' ∧ digitChar d ≠ 'b' := by decide

theorem natDigitsGo_fuel (n : Nat) : ∀ fuel, n < fuel →
    natDigitsGo fuel n = natDigitsGo (n + 1) n := by
  induction n using Nat.strong_induction_on with
  | _ n ih =>
    intro fuel hf
    match fuel with
    | f + 1 =>
      show (if n < 10 then [digitChar n] else natDigitsGo f (n / 10) ++ [digitChar (n % 10)]) = _
      by_cases h10 : n < 10
      · rw [if_pos h10]
        show _ = (if n < 10 then [digitChar n] else _)
        rw [if_pos h10]
      · rw [if_neg h10]
        show _ = (if n < 10 then [digitChar n] else natDigitsGo n (n / 10) ++ [digitChar (n % 10)])
        rw [if_neg h10]
        have hlt : n / 10 < n := Nat.div_lt_self (by omega) (by omega)
        rw [ih (n / 10) hlt f (by omega), ih (n / 10) hlt n (by omega)]

/-- The one-step unfolding of `natDigits`. -/
theorem natDigits_eq (n : Nat) :
    natDigits n = if n < 10 then [digitChar n]
      else natDigits (n / 10) ++ [digitChar (n % 10)] := by
  show (if n < 10 then [digitChar n] else natDigitsGo n (n / 10) ++ [digitChar (n % 10)]) = _
  by_cases h10 : n < 10
  · rw [if_pos h10, if_pos h10]
  · rw [if_neg h10, if_neg h10]
    have hlt : n / 10 < n := Nat.div_lt_self (by omega) (by omega)
    rw [natDigitsGo_fuel (n / 10) n hlt]
    rfl

theorem natDigits_ne_nil (n : Nat) : natDigits n ≠ [] := by
  rw [natDigits_eq]
  split
  · simp
  · simp

theorem natDigits_all_digits (n : Nat) : (natDigits n).all isDigitChar = true := by
  induction n using Nat.strong_induction_on with
  | _ n ih =>
    rw [natDigits_eq]
    split
    case isTrue h =>
      simp only [List.all_cons, List.all_nil, Bool.and_true]
      exact (digitChar_spec n (by simp [List.mem_range]; omega)).1
    case isFalse h =>
      rw [List.all_append]
      have h1 := ih (n / 10) (Nat.div_lt_self (by omega) (by omega))
      have h2 := (digitChar_spec (n % 10) (by simp [List.mem_range]; omega)).1
      simp [h1, h2]

theorem digitsToNat_natDigits (n : Nat) : digitsToNat (natDigits n) = n := by
  induction n using Nat.strong_induction_on with
  | _ n ih =>
    rw [natDigits_eq]
    split
    case isTrue h =>
      have := (digitChar_spec n (by simp [List.mem_range]; omega)).2.1
      simp only [digitsToNat, List.foldl_cons, List.foldl_nil]
      omega
    case isFalse h =>
      have hfront := ih (n / 10) (Nat.div_lt_self (by omega) (by omega))
      have hd := (digitChar_spec (n % 10) (by simp [List.mem_range]; omega)).2.1
      simp only [digitsToNat] at hfront ⊢
      rw [List.foldl_append]
      simp only [List.foldl_cons, List.foldl_nil, hfront]
      omega

theorem parseDigits_natDigits (n : Nat) : parseDigits (natDigits n) = some n := by
  simp only [parseDigits, List.isEmpty_iff]
  rw [if_neg (natDigits_ne_nil n), if_pos (natDigits_all_digits n), digitsToNat_natDigits]

theorem isDigitChar_ne (c : Char) (h : isDigitChar c = true) :
    c ≠ '-' ∧ c ≠ '#' ∧ c ≠ 'b' := by
  simp only [isDigitChar, List.mem_cons, List.not_mem_nil, or_false, decide_eq_true_eq] at h
  rcases h with h | h | h | h | h | h | h | h | h | h <;> subst h <;> exact ⟨by decide, by decide, by decide⟩

/-- The first character of a rendered integer is `-` or a digit: never a note
accidental character. -/
theorem intToStr_head (i : Int) :
    ∃ c cs, (intToStr i).data = c :: cs ∧ c ≠ '#' ∧ c ≠ 'b' := by
  unfold intToStr
  split
  · refine ⟨'-', natDigits i.natAbs, ?_, by decide, by decide⟩
    rw [String.data_append]
    rfl
  · rcases hd : natDigits i.toNat with _ | ⟨c, cs⟩
    · exact absurd hd (natDigits_ne_nil _)
    · have hall := natDigits_all_digits i.toNat
      rw [hd] at hall
      simp only [List.all_cons, Bool.and_eq_true] at hall
      exact ⟨c, cs, rfl, (isDigitChar_ne c hall.1).2.1, (isDigitChar_ne c hall.1).2.2⟩

theorem parseOctTail_intToStr (i : Int) : parseOctTail (intToStr i).data = some (some i) := by
  unfold intToStr
  split
  case isTrue h =>
    rw [String.data_append]
    show (parseDigits (natDigits i.natAbs)).map (fun n => some (-(Int.ofNat n))) = some (some i)
    rw [parseDigits_natDigits]
    have hi : -(Int.ofNat i.natAbs) = i := by rw [Int.ofNat_eq_natCast]; omega
    show some (some (-(Int.ofNat i.natAbs))) = some (some i)
    rw [hi]
  case isFalse h =>
    show parseOctTail (natDigits i.toNat) = some (some i)
    rcases hd : natDigits i.toNat with _ | ⟨c, cs⟩
    · exact absurd hd (natDigits_ne_nil _)
    · have hall := natDigits_all_digits i.toNat
      rw [hd] at hall
      simp only [List.all_cons, Bool.and_eq_true] at hall
      have hne := (isDigitChar_ne c hall.1).1
      show (if c = '-' then (parseDigits cs).map (fun n => some (-(Int.ofNat n)))
        else (parseDigits (c :: cs)).map fun n => some (Int.ofNat n)) = some (some i)
      rw [if_neg hne, ← hd, parseDigits_natDigits]
      have hi : Int.ofNat i.toNat = i := by rw [Int.ofNat_eq_natCast]; omega
      show some (some (Int.ofNat i.toNat)) = some (some i)
      rw [hi]

/-! ### The note-name grammar `^([A-G](?:#{1,2}|b{1,2})?)(-?\d+)?$` -/

/-- The characters matched by the regex class `[A-G]`. -/
def noteLetterChars : List Char := ['A', 'B', 'C', 'D', 'E', 'F', 'G']

/-- Candidate (name, remainder) splits of the accidental part, in the regex's
greedy backtracking order (`#{1,2}` and `b{1,2}` prefer two characters). -/
def accCandidates (letter : Char) (rest : List Char) : List (List Char × List Char) :=
  if rest.take 2 = ['#', '#'] then
    [([letter, '#', '#'], rest.drop 2), ([letter, '#'], rest.drop 1), ([letter], rest)]
  else if rest.take 1 = ['#'] then
    [([letter, '#'], rest.drop 1), ([letter], rest)]
  else if rest.take 2 = ['b', 'b'] then
    [([letter, 'b', 'b'], rest.drop 2), ([letter, 'b'], rest.drop 1), ([letter], rest)]
  else if rest.take 1 = ['b'] then
    [([letter, 'b'], rest.drop 1), ([letter], rest)]
  else [([letter], rest)]

/-- First candidate whose remainder parses as the octave group. -/
def tryCands : List (List Char × List Char) → Option (String × Option Int)
  | [] => none
  | (nm, r) :: rest =>
    match parseOctTail r with
    | some o => some (String.mk nm, o)
    | none => tryCands rest

/-- The full-string regex match of `parseNote`: returns the matched note name
and the optional octave group. -/
def noteMatch (note : String) : Option (String × Option Int) :=
  match note.data with
  | [] => none
  | c :: rest =>
    if c ∈ noteLetterChars then tryCands (accCandidates c rest)
    else none

/-! ### Pitch tables and the pitch codec -/

def NOTES : List String :=
  ["C", "C#", "D", "D#", "E", "F"] ++ ["F#", "G", "G#", "A", "A#", "B"]

def PREFERRED_ROOT_NAMES : List String :=
  ["C", "Db", "D", "Eb", "E", "F", "F#", "G", "Ab", "A", "Bb", "B"]

def LETTERS : List String := ["C", "D", "E", "F", "G", "A", "B"]

/-- JS `Array.prototype.indexOf`: index of the first occurrence, `-1` if absent. -/
def jsIndexOf (l : List String) (x : String) : Int :=
  match l.findIdx? (fun y => y = x) with
  | some i => Int.ofNat i
  | none => -1

/-- Function `getNoteIndex`: semitone index of a note name; direct `NOTES` lookup first,
then letter + accidental adjustment normalized into `0–11`. -/
def getNoteIndex (noteName : String) : Int :=
  let index := jsIndexOf NOTES noteName
  if index ≠ -1 then index
  else
    let letter := String.mk (noteName.data.take 1)
    let accidental := String.mk (noteName.data.drop 1)
    let baseIndex := jsIndexOf NOTES letter
    if baseIndex = -1 then 0
    else
      let b1 := if accidental = "#" then baseIndex + 1 else baseIndex
      let b2 := if accidental = "b" then b1 - 1 else b1
      let b3 := if accidental = "##" then b2 + 2 else b2
      let b4 := if accidental = "bb" then b3 - 2 else b3
      (b4 + 12).tmod 12

/-- The parsed form of a note string: `{ name, octave, absValue }`. -/
structure PNote where
  name : String
  octave : Int
  absValue : Int
deriving DecidableEq, Repr, Inhabited

/-- Function `parseNote`: match the grammar; on failure default to C4
(`{ name: 'C', octave: 4, absValue: 48 }`); octave defaults to 4. -/
def parseNote (note : String) : PNote :=
  match noteMatch note with
  | none => ⟨"C", 4, 48⟩
  | some (name, oct) =>
    let octave := match oct with | some o => o | none => 4
    ⟨name, octave, octave * 12 + getNoteIndex name⟩

/-- Function `getNoteFromIndex`: normalize to a pitch class (JS `((i % 12) + 12) % 12`),
carry `Math.floor(i / 12)` octaves, render in fixed sharp spelling. -/
def getNoteFromIndex (index : Int) (octave : Int) : String :=
  let normalizedIndex := ((index.tmod 12) + 12).tmod 12
  let octaveShift := index.fdiv 12
  NOTES.getD normalizedIndex.toNat "" ++ intToStr (octave + octaveShift)

/-- Function `spellNote`: spell pitch class `targetIndex` on letter `targetLetter`;
distances beyond a double accidental fall back to the sharp table. -/
def spellNote (targetIndex : Int) (targetLetter : String) : String :=
  let letterIndex := jsIndexOf NOTES targetLetter
  let diff0 := targetIndex - letterIndex
  let diff1 := if diff0 > 6 then diff0 - 12 else diff0
  let diff := if diff1 < -6 then diff1 + 12 else diff1
  if diff = 0 then targetLetter
  else if diff = 1 then targetLetter ++ "#"
  else if diff = 2 then targetLetter ++ "##"
  else if diff = -1 then targetLetter ++ "b"
  else if diff = -2 then targetLetter ++ "bb"
  else NOTES.getD targetIndex.toNat ""

/-- Function `transpose`: shift by any number of semitones, re-render at octave base 0. -/
def transpose (note : String) (semitones : Int) : String :=
  let p := parseNote note
  let index := getNoteIndex p.name
  let absoluteIndex := index + p.octave * 12 + semitones
  getNoteFromIndex absoluteIndex 0

/-! ### Render/parse round trip -/

theorem tmod_norm (i : Int) : ((i.tmod 12) + 12).tmod 12 = i % 12 := by
  rcases i with m | m
  · simp only [Int.ofNat_eq_natCast]
    have h1 : ((m : Int)).tmod 12 = (m : Int) % 12 := Int.tmod_eq_emod (by omega) (by omega)
    rw [h1]
    rw [Int.tmod_eq_emod (by omega) (by omega)]
    omega
  · have h1 : (Int.negSucc m).tmod 12 = -(Int.ofNat (m.succ % 12)) := rfl
    rw [h1, Int.ofNat_eq_natCast, Int.negSucc_eq]
    rw [Int.tmod_eq_emod (by omega) (by omega)]
    omega

theorem getNoteIndex_NOTES : ∀ pc ∈ List.range 12,
    getNoteIndex (NOTES.getD pc "") = Int.ofNat pc ∧ (NOTES.getD pc "").data ≠ [] := by
  decide

theorem accCandidates_plain (letter d : Char) (ds : List Char)
    (h1 : d ≠ '#') (h2 : d ≠ 'b') :
    accCandidates letter (d :: ds) = [([letter], d :: ds)] := by
  simp [accCandidates, h1, h2]

theorem accCandidates_sharp (letter d : Char) (ds : List Char)
    (h1 : d ≠ '#') :
    accCandidates letter ('#' :: d :: ds) =
      [([letter, '#'], d :: ds), ([letter], '#' :: d :: ds)] := by
  simp [accCandidates, h1]

/-- Shape lemma: matching a plain letter name followed by a valid octave tail. -/
theorem noteMatch_letter (o : Int) (c : Char) (hc : c ∈ noteLetterChars)
    (t : List Char) (hhead : ∃ d ds, t = d :: ds ∧ d ≠ '#' ∧ d ≠ 'b')
    (ho : parseOctTail t = some (some o)) :
    noteMatch (String.mk [c] ++ String.mk t) = some (String.mk [c], some o) := by
  obtain ⟨d, ds, ht, hd1, hd2⟩ := hhead
  show (if c ∈ noteLetterChars then tryCands (accCandidates c t) else none) =
    some (String.mk [c], some o)
  rw [if_pos hc]
  subst ht
  rw [accCandidates_plain c d ds hd1 hd2]
  rw [tryCands, ho]

/-- Shape lemma: matching a letter-sharp name followed by a valid octave tail. -/
theorem noteMatch_letter_sharp (o : Int) (c : Char) (hc : c ∈ noteLetterChars)
    (t : List Char) (hhead : ∃ d ds, t = d :: ds ∧ d ≠ '#' ∧ d ≠ 'b')
    (ho : parseOctTail t = some (some o)) :
    noteMatch (String.mk [c, '#'] ++ String.mk t) = some (String.mk [c, '#'], some o) := by
  obtain ⟨d, ds, ht, hd1, hd2⟩ := hhead
  show (if c ∈ noteLetterChars then tryCands (accCandidates c ('#' :: t)) else none) =
    some (String.mk [c, '#'], some o)
  rw [if_pos hc]
  subst ht
  rw [accCandidates_sharp c d ds hd1]
  rw [tryCands, ho]

/-- Matching a fixed-table name with a rendered octave suffix. -/
theorem noteMatch_render (pc : Nat) (hpc : pc < 12) (oct : Int) :
    noteMatch (NOTES.getD pc "" ++ intToStr oct) =
      some (NOTES.getD pc "", some oct) := by
  have hhead : ∃ d ds, (intToStr oct).data = d :: ds ∧ d ≠ '#' ∧ d ≠ 'b' :=
    intToStr_head oct
  have ho : parseOctTail (intToStr oct).data = some (some oct) := parseOctTail_intToStr oct
  have hmk : intToStr oct = String.mk (intToStr oct).data := rfl
  interval_cases pc
  · exact hmk ▸ noteMatch_letter oct 'C' (by decide) _ hhead ho
  · exact hmk ▸ noteMatch_letter_sharp oct 'C' (by decide) _ hhead ho
  · exact hmk ▸ noteMatch_letter oct 'D' (by decide) _ hhead ho
  · exact hmk ▸ noteMatch_letter_sharp oct 'D' (by decide) _ hhead ho
  · exact hmk ▸ noteMatch_letter oct 'E' (by decide) _ hhead ho
  · exact hmk ▸ noteMatch_letter oct 'F' (by decide) _ hhead ho
  · exact hmk ▸ noteMatch_letter_sharp oct 'F' (by decide) _ hhead ho
  · exact hmk ▸ noteMatch_letter oct 'G' (by decide) _ hhead ho
  · exact hmk ▸ noteMatch_letter_sharp oct 'G' (by decide) _ hhead ho
  · exact hmk ▸ noteMatch_letter oct 'A' (by decide) _ hhead ho
  · exact hmk ▸ noteMatch_letter_sharp oct 'A' (by decide) _ hhead ho
  · exact hmk ▸ noteMatch_letter oct 'B' (by decide) _ hhead ho

/-- Parsing a fixed-table rendering recovers the name, the octave and the
absolute value. -/
theorem parseNote_render (pc : Nat) (hpc : pc < 12) (oct : Int) :
    parseNote (NOTES.getD pc "" ++ intToStr oct) =
      ⟨NOTES.getD pc "", oct, oct * 12 + Int.ofNat pc⟩ := by
  rw [parseNote, noteMatch_render pc hpc oct]
  have := (getNoteIndex_NOTES pc (by simp [List.mem_range]; omega)).1
  simp only [this]

/-- The absolute value stored by `parseNote` is always `octave * 12 + index(name)`. -/
theorem parseNote_absValue (note : String) :
    (parseNote note).absValue =
      (parseNote note).octave * 12 + getNoteIndex (parseNote note).name := by
  rw [parseNote]
  rcases h : noteMatch note with _ | ⟨name, oct⟩
  · show (48 : Int) = 4 * 12 + getNoteIndex "C"
    decide
  · rfl

/-- Round trip: the string rendered from absolute index `i` parses back to
absolute value `i`. -/
theorem parseNote_getNoteFromIndex (i : Int) :
    (parseNote (getNoteFromIndex i 0)).absValue = i := by
  rw [getNoteFromIndex]
  have hnorm : ((i.tmod 12) + 12).tmod 12 = i % 12 := tmod_norm i
  have hrange : 0 ≤ i % 12 ∧ i % 12 < 12 := by omega
  have htn : (((i.tmod 12) + 12).tmod 12).toNat = (i % 12).toNat := by rw [hnorm]
  have htn2 : (i % 12).toNat < 12 := by omega
  show (parseNote (NOTES.getD (((i.tmod 12) + 12).tmod 12).toNat "" ++ intToStr (0 + i.fdiv 12))).absValue = i
  rw [htn, parseNote_render (i % 12).toNat htn2 (0 + i.fdiv 12)]
  show (0 + i.fdiv 12) * 12 + Int.ofNat (i % 12).toNat = i
  rw [Int.fdiv_eq_ediv _ (by omega), Int.ofNat_eq_natCast]
  omega

/-- A single transposition shifts the parsed absolute value exactly. -/
theorem transpose_absValue (note : String) (s : Int) :
    (parseNote (transpose note s)).absValue = (parseNote note).absValue + s := by
  rw [transpose, parseNote_getNoteFromIndex, parseNote_absValue note]
  ring

/-- C7 (claim): `transpose(transpose(n, a), b)` denotes the same absolute
pitch value (`octave * 12 + pitch class`) as `transpose(n, a + b)`, for every
note string `n` and all integers `a`, `b`; `transpose` is a total function, so
it never fails for any integer shift. -/
theorem transpose_additive (n : String) (a b : Int) :
    (parseNote (transpose (transpose n a) b)).absValue =
      (parseNote (transpose n (a + b))).absValue := by
  rw [transpose_absValue, transpose_absValue, transpose_absValue]
  ring

/-- Unparseable text parses to the same record as `"C4"`. -/
theorem parseNote_default (t : String) (h : noteMatch t = none) :
    parseNote t = parseNote "C4" := by
  rw [parseNote, h]
  decide

/-! ### Scales -/

inductive ScaleMode where
  | Ionian | Dorian | Phrygian | Lydian | Mixolydian | Aeolian | Locrian | Chromatic
deriving DecidableEq, Repr

def MODES : ScaleMode → List Int
  | .Ionian => [0, 2, 4, 5, 7, 9, 11]
  | .Dorian => [0, 2, 3, 5, 7, 9, 10]
  | .Phrygian => [0, 1, 3, 5, 7, 8, 10]
  | .Lydian => [0, 2, 4, 6, 7, 9, 11]
  | .Mixolydian => [0, 2, 4, 5, 7, 9, 10]
  | .Aeolian => [0, 2, 3, 5, 7, 8, 10]
  | .Locrian => [0, 1, 3, 5, 6, 8, 10]
  | .Chromatic => [0, 1, 2, 3, 4, 5, 6, 7, 8, 9, 10, 11]

/-- The spelled (octave-free) name of one diatonic scale degree. -/
def diatonicName (rootIndex rootLetterIndex : Int) (degree : Nat) (interval : Int) : String :=
  spellNote ((rootIndex + interval).tmod 12)
    (LETTERS.getD ((rootLetterIndex + (degree : Int)).tmod 7).toNat "")

/-- One scale degree of `getScaleNotes`: Chromatic degrees use the sharp table
directly; diatonic degrees are spelled on the forced letter, bumping the octave
when the letter sequence wraps past B. -/
def scaleDegreeNote (rootIndex rootLetterIndex currentOctave : Int) (mode : ScaleMode)
    (degree : Nat) (interval : Int) : String :=
  let absPitch := (rootIndex + interval).tmod 12
  if mode = ScaleMode.Chromatic then
    getNoteFromIndex absPitch currentOctave
  else
    let targetLetterIndex := (rootLetterIndex + (degree : Int)).tmod 7
    let noteOctave := if targetLetterIndex < rootLetterIndex then currentOctave + 1
      else currentOctave
    diatonicName rootIndex rootLetterIndex degree interval ++ intToStr noteOctave

/-- Function `getScaleNotes(root, mode, octaves)`. -/
def getScaleNotes (root : String) (mode : ScaleMode) (octaves : Nat) : List String :=
  let p := parseNote root
  let rootIndex := getNoteIndex p.name
  let rootLetter := String.mk (p.name.data.take 1)
  let rootLetterIndex := jsIndexOf LETTERS rootLetter
  ((List.range octaves).map fun i =>
    (MODES mode).enum.map fun di =>
      scaleDegreeNote rootIndex rootLetterIndex (p.octave + Int.ofNat i) mode di.1 di.2).flatten

/-- C9 (claim): unparseable note text behaves exactly like `"C4"` with no
distinct error signal: for every string `t` rejected by the grammar and every
shift `s`, `transpose t s = transpose "C4" s`, and for every mode and octave
count `getScaleNotes t mode k = getScaleNotes "C4" mode k`. -/
theorem parse_fallback_default (t : String) (hbad : noteMatch t = none) :
    (∀ s : Int, transpose t s = transpose "C4" s) ∧
    (∀ (mode : ScaleMode) (k : Nat), getScaleNotes t mode k = getScaleNotes "C4" mode k) := by
  have hp : parseNote t = parseNote "C4" := parseNote_default t hbad
  constructor
  · intro s
    rw [transpose, transpose, hp]
  · intro mode k
    rw [getScaleNotes, getScaleNotes, hp]

/-- Witness for C9 at the concrete rejected string `"H7"` (H is not a note
letter), shift 5, Dorian, two octaves. -/
theorem parse_fallback_default_witness :
    transpose "H7" 5 = transpose "C4" 5 ∧
    getScaleNotes "H7" ScaleMode.Dorian 2 = getScaleNotes "C4" ScaleMode.Dorian 2 := by
  have h := parse_fallback_default "H7" (by decide)
  exact ⟨h.1 5, h.2 ScaleMode.Dorian 2⟩

/-! ### Generic inversion -/

/-- Stable ascending sort by absolute value (JS `sort((a, b) => a.absValue - b.absValue)`
is specified stable; a stable sort by a total preorder is unique, so insertion
sort gives exactly the JS result). -/
def sortByAbs (l : List PNote) : List PNote :=
  l.insertionSort fun a b => a.absValue ≤ b.absValue

/-- One positive inversion step: shift the lowest note, re-insert it an octave
higher (re-parsed from its rendered name), re-sort. -/
def invStepUp (l : List PNote) : List PNote :=
  match l with
  | [] => []
  | lowest :: rest =>
    sortByAbs (rest ++ [parseNote (getNoteFromIndex (lowest.absValue + 12) 0)])

/-- One negative inversion step: pop the highest note, re-insert it an octave
lower at the front, re-sort. -/
def invStepDown (l : List PNote) : List PNote :=
  match l.getLast? with
  | none => l
  | some highest =>
    sortByAbs (parseNote (getNoteFromIndex (highest.absValue - 12) 0) :: l.dropLast)

/-- Function `applyGenericInversion(notes, steps)`. -/
def applyGenericInversion (notes : List String) (steps : Int) : List String :=
  if steps = 0 then notes
  else
    let parsedNotes := sortByAbs (notes.map parseNote)
    let result :=
      if 0 < steps then invStepUp^[steps.toNat] parsedNotes
      else invStepDown^[steps.natAbs] parsedNotes
    result.map fun n => getNoteFromIndex n.absValue 0

/-- The pitch class (mod 12) of each note of a list, as a multiset. -/
def pcMultiset (notes : List String) : Multiset Int :=
  ((notes.map fun n => (parseNote n).absValue % 12 : List Int) : Multiset Int)

/-- Pitch classes of a parsed list. -/
def pcList (l : List PNote) : List Int := l.map fun p => p.absValue % 12

theorem pcList_sortByAbs (l : List PNote) : List.Perm (pcList (sortByAbs l)) (pcList l) :=
  (List.perm_insertionSort _ l).map _

theorem pcList_invStepUp (l : List PNote) : List.Perm (pcList (invStepUp l)) (pcList l) := by
  rcases l with _ | ⟨lowest, rest⟩
  · exact List.Perm.refl _
  · refine (pcList_sortByAbs _).trans ?_
    have habs : (parseNote (getNoteFromIndex (lowest.absValue + 12) 0)).absValue =
        lowest.absValue + 12 := parseNote_getNoteFromIndex _
    have hpc : (parseNote (getNoteFromIndex (lowest.absValue + 12) 0)).absValue % 12 =
        lowest.absValue % 12 := by rw [habs]; omega
    show List.Perm (pcList (rest ++ [parseNote (getNoteFromIndex (lowest.absValue + 12) 0)]))
      (pcList (lowest :: rest))
    rw [pcList, List.map_append]
    refine (List.perm_append_singleton _ _).trans ?_
    show List.Perm ((parseNote (getNoteFromIndex (lowest.absValue + 12) 0)).absValue % 12 ::
      pcList rest) (pcList (lowest :: rest))
    rw [hpc]
    exact List.Perm.refl _

theorem pcList_invStepDown (l : List PNote) : List.Perm (pcList (invStepDown l)) (pcList l) := by
  rw [invStepDown]
  rcases h : l.getLast? with _ | highest
  · exact List.Perm.refl _
  · have hne : l ≠ [] := by
      intro hnil
      rw [hnil] at h
      exact Option.noConfusion h
    have hlast : l.getLast hne = highest := by
      have := List.getLast?_eq_getLast l hne
      rw [h] at this
      exact (Option.some.injEq _ _).mp this.symm
    have hsplit : l.dropLast ++ [highest] = l := by
      rw [← hlast]
      exact List.dropLast_append_getLast hne
    refine (pcList_sortByAbs _).trans ?_
    have habs : (parseNote (getNoteFromIndex (highest.absValue - 12) 0)).absValue =
        highest.absValue - 12 := parseNote_getNoteFromIndex _
    have hpc : (parseNote (getNoteFromIndex (highest.absValue - 12) 0)).absValue % 12 =
        highest.absValue % 12 := by rw [habs]; omega
    show List.Perm ((parseNote (getNoteFromIndex (highest.absValue - 12) 0)).absValue % 12 ::
      pcList l.dropLast) (pcList l)
    rw [hpc]
    have hstep : List.Perm (pcList (highest :: l.dropLast)) (pcList (l.dropLast ++ [highest])) :=
      List.Perm.map _ (List.perm_append_singleton _ _).symm
    rw [hsplit] at hstep
    exact hstep

theorem length_sortByAbs (l : List PNote) : (sortByAbs l).length = l.length :=
  (List.perm_insertionSort _ l).length_eq

theorem length_invStepUp (l : List PNote) : (invStepUp l).length = l.length := by
  have := (pcList_invStepUp l).length_eq
  simpa [pcList] using this

theorem length_invStepDown (l : List PNote) : (invStepDown l).length = l.length := by
  have := (pcList_invStepDown l).length_eq
  simpa [pcList] using this

theorem pcList_iterate_up (n : Nat) (l : List PNote) :
    List.Perm (pcList (invStepUp^[n] l)) (pcList l) := by
  induction n generalizing l with
  | zero => exact List.Perm.refl _
  | succ k ih =>
    rw [Function.iterate_succ_apply]
    exact (ih (invStepUp l)).trans (pcList_invStepUp l)

theorem pcList_iterate_down (n : Nat) (l : List PNote) :
    List.Perm (pcList (invStepDown^[n] l)) (pcList l) := by
  induction n generalizing l with
  | zero => exact List.Perm.refl _
  | succ k ih =>
    rw [Function.iterate_succ_apply]
    exact (ih (invStepDown l)).trans (pcList_invStepDown l)

/-- Shared core: a single `applyGenericInversion` call preserves the
pitch-class multiset and the note count, for every input list and step count. -/
theorem applyGenericInversion_core (notes : List String) (steps : Int) :
    pcMultiset (applyGenericInversion notes steps) = pcMultiset notes ∧
    (applyGenericInversion notes steps).length = notes.length := by
  rw [applyGenericInversion]
  split
  · exact ⟨rfl, rfl⟩
  · set parsedNotes := sortByAbs (notes.map parseNote) with hparsed
    set result := if 0 < steps then invStepUp^[steps.toNat] parsedNotes
      else invStepDown^[steps.natAbs] parsedNotes with hres
    have hresult : List.Perm (pcList result) (pcList parsedNotes) := by
      rw [hres]
      split
      · exact pcList_iterate_up _ _
      · exact pcList_iterate_down _ _
    have hsort : List.Perm (pcList parsedNotes) (pcList (notes.map parseNote)) :=
      pcList_sortByAbs _
    have hout : pcMultiset (result.map fun n => getNoteFromIndex n.absValue 0) =
        ((pcList result : List Int) : Multiset Int) := by
      rw [pcMultiset, pcList, List.map_map]
      congr 1
      refine List.map_congr_left fun p _ => ?_
      show (parseNote (getNoteFromIndex p.absValue 0)).absValue % 12 = p.absValue % 12
      rw [parseNote_getNoteFromIndex]
    have hin : pcMultiset notes = ((pcList (notes.map parseNote) : List Int) : Multiset Int) := by
      rw [pcMultiset, pcList, List.map_map]
      rfl
    constructor
    · rw [hout, hin]
      exact Multiset.coe_eq_coe.mpr (hresult.trans hsort)
    · rw [List.length_map]
      have h1 := (hresult.trans hsort).length_eq
      simp only [pcList, List.length_map] at h1
      exact h1

/-- C2 (claim): for every non-empty list of valid note strings and every
integer `steps`, `applyGenericInversion(notes, steps)` returns a list with the
same multiset of pitch classes (mod 12) and the same number of notes as the
input — only octave assignments change. -/
theorem applyGenericInversion_preserves_pitchClasses (notes : List String) (steps : Int)
    (_hne : notes ≠ []) (_hvalid : ∀ n ∈ notes, noteMatch n ≠ none) :
    pcMultiset (applyGenericInversion notes steps) = pcMultiset notes ∧
    (applyGenericInversion notes steps).length = notes.length :=
  applyGenericInversion_core notes steps

/-- Witness for C2: a concrete non-empty valid chord, one step up. -/
theorem applyGenericInversion_preserves_pitchClasses_witness :
    pcMultiset (applyGenericInversion ["C4", "E4", "G4"] 1) = pcMultiset ["C4", "E4", "G4"] ∧
    (applyGenericInversion ["C4", "E4", "G4"] 1).length = (["C4", "E4", "G4"] : List String).length :=
  applyGenericInversion_preserves_pitchClasses ["C4", "E4", "G4"] 1 (by decide) (by decide)

/-- C3 (counterexample): the round trip does NOT preserve spelling exactly.
`["Db4"]` is a valid note list; applying `+1` then `-1` yields `["C#4"]`, an
enharmonic re-spelling — so the claim's "spelling is preserved exactly across
the round trip" fails at this input. -/
theorem inversion_roundtrip_spelling_counterexample :
    noteMatch "Db4" ≠ none ∧
    applyGenericInversion (applyGenericInversion ["Db4"] 1) (-1) = ["C#4"] ∧
    applyGenericInversion (applyGenericInversion ["Db4"] 1) (-1) ≠ ["Db4"] := by
  refine ⟨by decide, by decide, by decide⟩

/-- C3 (amended): for every list `x` and every integer `k`, the round trip
`applyGenericInversion(applyGenericInversion(x, k), -k)` yields the same
pitch-class multiset and the same note count as `x`; spelling is not preserved
in general, because the outputs are re-rendered in the fixed sharp table. -/
theorem inversion_roundtrip_pitchClasses (x : List String) (k : Int) :
    pcMultiset (applyGenericInversion (applyGenericInversion x k) (-k)) = pcMultiset x ∧
    (applyGenericInversion (applyGenericInversion x k) (-k)).length = x.length := by
  have h1 := applyGenericInversion_core x k
  have h2 := applyGenericInversion_core (applyGenericInversion x k) (-k)
  exact ⟨h2.1.trans h1.1, h2.2.trans h1.2⟩

/-! ### Diatonic chords -/

inductive ChordType where
  | maj | min | dim | aug | sus2 | sus4 | dom7 | maj7 | min7
deriving DecidableEq, Repr

/-- Function `getDiatonicChordType(scaleNotes, degreeIndex)`: measure the third and
fifth intervals (indices modulo the scale length, intervals normalized mod 12)
and classify; anything unrecognised falls back to `maj`. -/
def getDiatonicChordType (scaleNotes : List String) (degreeIndex : Nat) : ChordType :=
  let root := parseNote (scaleNotes.getD (degreeIndex % scaleNotes.length) "")
  let third := parseNote (scaleNotes.getD ((degreeIndex + 2) % scaleNotes.length) "")
  let fifth := parseNote (scaleNotes.getD ((degreeIndex + 4) % scaleNotes.length) "")
  let thirdInterval0 := (third.absValue - root.absValue).tmod 12
  let thirdInterval := if thirdInterval0 < 0 then thirdInterval0 + 12 else thirdInterval0
  let fifthInterval0 := (fifth.absValue - root.absValue).tmod 12
  let fifthInterval := if fifthInterval0 < 0 then fifthInterval0 + 12 else fifthInterval0
  if fifthInterval = 7 ∧ thirdInterval = 4 then ChordType.maj
  else if fifthInterval = 7 ∧ thirdInterval = 3 then ChordType.min
  else if fifthInterval = 6 ∧ thirdInterval = 3 then ChordType.dim
  else if fifthInterval = 8 ∧ thirdInterval = 4 then ChordType.aug
  else ChordType.maj

/-- Function `getDiatonicChord(scaleNotes, degreeIndex, inversionStrategy)`: plain
triad `[root, third, fifth]`; JS-falsy (missing or empty-string) third/fifth
degrade to `[root]`; with the voicing flag and `degreeIndex >= 3` the fifth is
dropped an octave below the root. -/
def getDiatonicChord (scaleNotes : List String) (degreeIndex : Nat)
    (inversionStrategy : Bool) : List String :=
  let root := scaleNotes[degreeIndex]?.getD ""
  let third := scaleNotes[degreeIndex + 2]?.getD ""
  let fifth := scaleNotes[degreeIndex + 4]?.getD ""
  if third = "" ∨ fifth = "" then [root]
  else if inversionStrategy = true ∧ 3 ≤ degreeIndex then
    if 3 ≤ degreeIndex then [transpose fifth (-12), root, third]
    else [root, third, fifth]
  else [root, third, fifth]

/-- C5 (claim): with the single-octave C-major scale, degrees 0, 1 and 6 are
classified `maj`, `min` and `dim` (I, ii, vii°), the lookups wrapping modulo
the 7-note scale and the intervals normalized mod 12. -/
theorem getDiatonicChordType_CMajor_cases :
    getDiatonicChordType (getScaleNotes "C4" ScaleMode.Ionian 1) 0 = ChordType.maj ∧
    getDiatonicChordType (getScaleNotes "C4" ScaleMode.Ionian 1) 1 = ChordType.min ∧
    getDiatonicChordType (getScaleNotes "C4" ScaleMode.Ionian 1) 6 = ChordType.dim := by
  refine ⟨by decide, by decide, by decide⟩

/-- C6 (claim): with third and fifth entries present (and non-empty, which is
what the source's JS-falsiness check requires of a "defined" entry),
`getDiatonicChord` returns `[root, third, fifth]` for `degreeIndex ≤ 2` or with
the voicing flag off, and `[transpose(fifth, -12), root, third]` for
`degreeIndex ≥ 3` with the flag on. -/
theorem getDiatonicChord_voicing_spec (scale : List String) (d : Nat)
    (h : d + 4 < scale.length)
    (h3 : scale.getD (d + 2) "" ≠ "") (h5 : scale.getD (d + 4) "" ≠ "") :
    getDiatonicChord scale d false = [scale.getD d "", scale.getD (d + 2) "", scale.getD (d + 4) ""] ∧
    (d ≤ 2 → getDiatonicChord scale d true =
      [scale.getD d "", scale.getD (d + 2) "", scale.getD (d + 4) ""]) ∧
    (3 ≤ d → getDiatonicChord scale d true =
      [transpose (scale.getD (d + 4) "") (-12), scale.getD d "", scale.getD (d + 2) ""]) := by
  have e3 : scale[d + 2]?.getD "" = scale.getD (d + 2) "" :=
    (List.getD_eq_getElem?_getD scale (d + 2) "").symm
  have e5 : scale[d + 4]?.getD "" = scale.getD (d + 4) "" :=
    (List.getD_eq_getElem?_getD scale (d + 4) "").symm
  have e0 : scale[d]?.getD "" = scale.getD d "" :=
    (List.getD_eq_getElem?_getD scale d "").symm
  refine ⟨?_, ?_, ?_⟩
  · rw [getDiatonicChord, e0, e3, e5, if_neg (by push_neg; exact ⟨h3, h5⟩)]
    rw [if_neg (by simp)]
  · intro hd
    rw [getDiatonicChord, e0, e3, e5, if_neg (by push_neg; exact ⟨h3, h5⟩)]
    rw [if_neg (by omega)]
  · intro hd
    rw [getDiatonicChord, e0, e3, e5, if_neg (by push_neg; exact ⟨h3, h5⟩)]
    rw [if_pos ⟨rfl, hd⟩, if_pos hd]

/-- Witness for C6 on a two-octave C-major scale at degree 3 (the IV chord). -/
theorem getDiatonicChord_voicing_spec_witness :
    getDiatonicChord (getScaleNotes "C4" ScaleMode.Ionian 2) 3 false =
      [(getScaleNotes "C4" ScaleMode.Ionian 2).getD 3 "",
       (getScaleNotes "C4" ScaleMode.Ionian 2).getD (3 + 2) "",
       (getScaleNotes "C4" ScaleMode.Ionian 2).getD (3 + 4) ""] ∧
    (3 ≤ 2 → getDiatonicChord (getScaleNotes "C4" ScaleMode.Ionian 2) 3 true =
      [(getScaleNotes "C4" ScaleMode.Ionian 2).getD 3 "",
       (getScaleNotes "C4" ScaleMode.Ionian 2).getD (3 + 2) "",
       (getScaleNotes "C4" ScaleMode.Ionian 2).getD (3 + 4) ""]) ∧
    (3 ≤ 3 → getDiatonicChord (getScaleNotes "C4" ScaleMode.Ionian 2) 3 true =
      [transpose ((getScaleNotes "C4" ScaleMode.Ionian 2).getD (3 + 4) "") (-12),
       (getScaleNotes "C4" ScaleMode.Ionian 2).getD 3 "",
       (getScaleNotes "C4" ScaleMode.Ionian 2).getD (3 + 2) ""]) :=
  getDiatonicChord_voicing_spec (getScaleNotes "C4" ScaleMode.Ionian 2) 3
    (by decide) (by decide) (by decide)

/-! ### Chord-name detection -/

/-- The known chord signatures of `detectChordName`, keyed by the comma-joined
sorted interval list. -/
def signatureTable : List (String × String) :=
  [("0,4,7", ""), ("0,3,7", "m"), ("0,3,6", "dim"), ("0,4,8", "aug"),
   ("0,2,7", "sus2"), ("0,5,7", "sus4"), ("0,4,7,11", "maj7"), ("0,4,7,10", "7"),
   ("0,3,7,10", "m7"), ("0,3,6,9", "dim7"), ("0,3,6,10", "m7b5")]

/-- JS `new Set(xs)`: unique values, first-occurrence order. -/
def jsSetDedup (l : List Int) : List Int :=
  l.foldl (fun acc x => if x ∈ acc then acc else acc ++ [x]) []

/-- Ascending sort of integers (stable; JS `sort((a, b) => a - b)`). -/
def sortInts (l : List Int) : List Int := l.insertionSort fun a b => a ≤ b

/-- Function `detectChordName(notes)`: sort by pitch, take the lowest note's spelling as
the bass, collapse to unique pitch classes, then try every pitch class in
ascending order as a root against the signature table; first match wins, named
from the flat-preferring root table, with `/bass` when the root name differs
from the bass spelling. -/
def detectChordName (notes : List String) : String :=
  if notes.isEmpty then ""
  else
    let parsed := sortByAbs (notes.map parseNote)
    let bassNote := (parsed.headD default).name
    let pitchClasses := parsed.map fun n => getNoteIndex n.name
    let uniquePitchClasses := sortInts (jsSetDedup pitchClasses)
    let found := uniquePitchClasses.findSome? fun rootIndex =>
      let currentIntervals := String.intercalate ","
        ((sortInts (uniquePitchClasses.map fun p => (p - rootIndex + 12).tmod 12)).map intToStr)
      match (signatureTable.find? fun sig => sig.1 = currentIntervals) with
      | some sig =>
        let rootName := PREFERRED_ROOT_NAMES.getD rootIndex.toNat ""
        if rootName ≠ bassNote then some (rootName ++ sig.2 ++ "/" ++ bassNote)
        else some (rootName ++ sig.2)
      | none => none
    found.getD "?"

/-- C1 (claim): the five concrete detection cases of the spec. -/
theorem detectChordName_concrete_cases :
    detectChordName ["C4", "E4", "G4"] = "C" ∧
    detectChordName ["E4", "G4", "C5"] = "C/E" ∧
    detectChordName ["A3", "C4", "E4"] = "Am" ∧
    detectChordName ["C4", "E4", "G4", "Bb4"] = "C7" ∧
    detectChordName ["C4", "F4", "G4"] = "Csus4" := by
  refine ⟨by decide, by decide, by decide, by decide, by decide⟩

/-- C10 (claim): the inversion check compares the detected root's rendered name
(from the flat-preferring table) with the bass note's input spelling, not their
pitch classes: `["C#4","E#4","G#4"]` has bass pitch class equal to the detected
root's pitch class, yet is labelled as the slash chord `"Db/C#"`. -/
theorem detectChordName_enharmonic_slash :
    detectChordName ["C#4", "E#4", "G#4"] = "Db/C#" ∧
    getNoteIndex "C#" = getNoteIndex "Db" ∧
    (parseNote "C#4").name = "C#" := by
  refine ⟨by decide, by decide, by decide⟩

/-! ### Spelling round trip -/

/-- Finite check behind C8: all pitch classes and all letters within circular
distance 2. -/
theorem spellNote_roundtrip_aux : ∀ pc ∈ List.range 12, ∀ letter ∈ LETTERS,
    (((Int.ofNat pc) - getNoteIndex letter) % 12 ≤ 2 ∨
      10 ≤ ((Int.ofNat pc) - getNoteIndex letter) % 12) →
    getNoteIndex (spellNote (Int.ofNat pc) letter) = Int.ofNat pc := by
  decide

/-- C8 (claim): for every pitch class 0–11 and every letter whose natural
pitch class is within two semitones of it (circularly — i.e. reachable with at
most a double accidental), `getNoteIndex (spellNote pc letter) = pc`. -/
theorem spellNote_roundtrip (pc : Nat) (hpc : pc < 12) (letter : String)
    (hl : letter ∈ LETTERS)
    (hreach : ((Int.ofNat pc) - getNoteIndex letter) % 12 ≤ 2 ∨
      10 ≤ ((Int.ofNat pc) - getNoteIndex letter) % 12) :
    getNoteIndex (spellNote (Int.ofNat pc) letter) = Int.ofNat pc :=
  spellNote_roundtrip_aux pc (List.mem_range.mpr hpc) letter hl hreach

/-- Witness for C8 at pitch class 5 spelled on the letter E (`"E#"`). -/
theorem spellNote_roundtrip_witness :
    getNoteIndex (spellNote (Int.ofNat 5) "E") = Int.ofNat 5 :=
  spellNote_roundtrip 5 (by decide) "E" (by decide) (by decide)

/-! ### Scale cardinality and per-octave letter coverage -/

/-- First character of a note string (its letter when the string is a note name). -/
def noteLetter (s : String) : Char := s.data.headD '?'

/-- The octave-free spelled names of one diatonic scale statement. -/
def blockNames (rootIndex rootLetterIndex : Int) (mode : ScaleMode) : List String :=
  (MODES mode).enum.map fun di => diatonicName rootIndex rootLetterIndex di.1 di.2

def diatonicModesList : List ScaleMode :=
  [.Ionian, .Dorian, .Phrygian, .Lydian, .Mixolydian, .Aeolian, .Locrian]

/-- Every note name the grammar can produce with at most one accidental. -/
def nameList21 : List String :=
  ["A", "A#", "Ab", "B", "B#", "Bb", "C", "C#", "Cb", "D", "D#", "Db",
   "E", "E#", "Eb", "F", "F#", "Fb", "G", "G#", "Gb"]

theorem tryCands_shape (l : List (List Char × List Char)) (nm : String) (o : Option Int)
    (h : tryCands l = some (nm, o)) : ∃ p ∈ l, nm = String.mk p.1 := by
  induction l with
  | nil => exact absurd h (by simp [tryCands])
  | cons q l ih =>
    obtain ⟨qn, qr⟩ := q
    rcases hpo : parseOctTail qr with _ | o2
    · have hstep : tryCands ((qn, qr) :: l) = tryCands l := by
        show (match parseOctTail qr with
          | some o => some (String.mk qn, o)
          | none => tryCands l) = tryCands l
        rw [hpo]
      rw [hstep] at h
      obtain ⟨p, hp, hnm⟩ := ih h
      exact ⟨p, List.mem_cons_of_mem _ hp, hnm⟩
    · have hstep : tryCands ((qn, qr) :: l) = some (String.mk qn, o2) := by
        show (match parseOctTail qr with
          | some o => some (String.mk qn, o)
          | none => tryCands l) = some (String.mk qn, o2)
        rw [hpo]
      rw [hstep] at h
      have := (Option.some.injEq _ _).mp h
      exact ⟨(qn, qr), List.mem_cons_self _ _, (congrArg Prod.fst this).symm⟩

theorem accCandidates_shape (c : Char) (rest : List Char) :
    ∀ p ∈ accCandidates c rest,
      p.1 = [c] ∨ p.1 = [c, '#'] ∨ p.1 = [c, '#', '#'] ∨
      p.1 = [c, 'b'] ∨ p.1 = [c, 'b', 'b'] := by
  intro p hp
  unfold accCandidates at hp
  split_ifs at hp
  · simp only [List.mem_cons, List.not_mem_nil, or_false] at hp
    rcases hp with rfl | rfl | rfl <;> simp
  · simp only [List.mem_cons, List.not_mem_nil, or_false] at hp
    rcases hp with rfl | rfl <;> simp
  · simp only [List.mem_cons, List.not_mem_nil, or_false] at hp
    rcases hp with rfl | rfl | rfl <;> simp
  · simp only [List.mem_cons, List.not_mem_nil, or_false] at hp
    rcases hp with rfl | rfl <;> simp
  · simp only [List.mem_cons, List.not_mem_nil, or_false] at hp
    rw [hp]
    simp

/-- A parsed name of length at most 2 is a letter with at most one accidental. -/
theorem parseNote_name_mem (s : String) (h2 : (parseNote s).name.length ≤ 2) :
    (parseNote s).name ∈ nameList21 := by
  rcases hm : noteMatch s with _ | ⟨nm, o⟩
  · rw [parseNote, hm]
    decide
  · rw [parseNote, hm] at h2 ⊢
    have h2' : nm.length ≤ 2 := h2
    show nm ∈ nameList21
    rcases hdata : s.data with _ | ⟨c, rest⟩
    · have : noteMatch s = none := by
        unfold noteMatch
        rw [hdata]
      rw [this] at hm
      exact Option.noConfusion hm
    · have hm' : (if c ∈ noteLetterChars then tryCands (accCandidates c rest) else none) =
          some (nm, o) := by
        have hunf : noteMatch s =
            (if c ∈ noteLetterChars then tryCands (accCandidates c rest) else none) := by
          unfold noteMatch
          rw [hdata]
        rw [← hunf, hm]
      by_cases hc : c ∈ noteLetterChars
      · rw [if_pos hc] at hm'
        obtain ⟨p, hp, hnm⟩ := tryCands_shape _ _ _ hm'
        have hshape := accCandidates_shape c rest p hp
        subst hnm
        rcases hshape with h1 | h1 | h1 | h1 | h1 <;> rw [h1] at h2' ⊢
        · fin_cases hc <;> decide
        · fin_cases hc <;> decide
        · have hlen : (String.mk [c, '#', '#']).length = 3 := rfl
          omega
        · fin_cases hc <;> decide
        · have hlen : (String.mk [c, 'b', 'b']).length = 3 := rfl
          omega
      · rw [if_neg hc] at hm'
        exact Option.noConfusion hm'

/-- Finite check: for every root name with at most one accidental and every
diatonic mode, the seven spelled block names are non-empty and their initial
letters are a permutation of the seven letter names. -/
theorem blockNames_ok : ∀ nm ∈ nameList21, ∀ mode ∈ diatonicModesList,
    ((blockNames (getNoteIndex nm) (jsIndexOf LETTERS (String.mk (nm.data.take 1))) mode).all
      fun s => decide (s ≠ "")) = true ∧
    List.Perm
      ((blockNames (getNoteIndex nm) (jsIndexOf LETTERS (String.mk (nm.data.take 1))) mode).map
        noteLetter)
      ['C', 'D', 'E', 'F', 'G', 'A', 'B'] := by
  decide

theorem eq_empty_of_data_eq_nil (s : String) (h : s.data = []) : s = "" := by
  cases s
  cases h
  rfl

theorem noteLetter_append (s t : String) (h : s ≠ "") : noteLetter (s ++ t) = noteLetter s := by
  rw [noteLetter, noteLetter, String.data_append]
  rcases hs : s.data with _ | ⟨c, cs⟩
  · exact absurd (eq_empty_of_data_eq_nil s hs) h
  · rfl

/-- The letters of one generated octave block do not depend on the octave. -/
theorem block_letters (ri rli oct : Int) (mode : ScaleMode)
    (hmode : mode ≠ ScaleMode.Chromatic)
    (hne : ∀ s ∈ blockNames ri rli mode, s ≠ "") :
    ((MODES mode).enum.map fun di => scaleDegreeNote ri rli oct mode di.1 di.2).map noteLetter =
      (blockNames ri rli mode).map noteLetter := by
  rw [blockNames, List.map_map, List.map_map]
  refine List.map_congr_left fun di hdi => ?_
  have hmem : diatonicName ri rli di.1 di.2 ∈ blockNames ri rli mode :=
    List.mem_map_of_mem _ hdi
  show noteLetter (scaleDegreeNote ri rli oct mode di.1 di.2) =
    noteLetter (diatonicName ri rli di.1 di.2)
  simp only [scaleDegreeNote, if_neg hmode]
  exact noteLetter_append _ _ (hne _ hmem)

theorem flatten_length_const {α : Type} (L : List (List α)) (n : Nat)
    (h : ∀ l ∈ L, l.length = n) : L.flatten.length = n * L.length := by
  induction L with
  | nil => simp
  | cons l L ih =>
    rw [List.flatten_cons, List.length_append,
      ih (fun x hx => h x (List.mem_cons_of_mem _ hx)), h l (List.mem_cons_self _ _),
      List.length_cons]
    ring

theorem flatten_block {α : Type} (L : List (List α)) (n : Nat)
    (h : ∀ l ∈ L, l.length = n) :
    ∀ i < L.length, (L.flatten.drop (n * i)).take n = L.getD i [] := by
  induction L with
  | nil =>
    intro i hi
    exact absurd hi (by simp)
  | cons l L ih =>
    intro i hi
    match i with
    | 0 =>
      rw [Nat.mul_zero, List.drop_zero, List.flatten_cons]
      have hl := h l (List.mem_cons_self _ _)
      rw [← hl, List.take_left]
      rfl
    | i + 1 =>
      rw [List.flatten_cons]
      have hl := h l (List.mem_cons_self _ _)
      have hsplit : n * (i + 1) = l.length + n * i := by rw [hl]; ring
      rw [hsplit, ← List.drop_drop, List.drop_left]
      exact ih (fun x hx => h x (List.mem_cons_of_mem _ hx)) i (by simpa using hi)

theorem MODES_length (mode : ScaleMode) (h : mode ≠ ScaleMode.Chromatic) :
    (MODES mode).length = 7 := by
  cases mode <;> first | rfl | exact absurd rfl h

theorem mem_diatonicModesList (mode : ScaleMode) (h : mode ≠ ScaleMode.Chromatic) :
    mode ∈ diatonicModesList := by
  cases mode <;> first | decide | exact absurd rfl h

/-- Rewriting `getScaleNotes` as octave blocks. -/
theorem getScaleNotes_eq (root : String) (mode : ScaleMode) (k : Nat) :
    getScaleNotes root mode k =
      ((List.range k).map fun i =>
        (MODES mode).enum.map fun di =>
          scaleDegreeNote (getNoteIndex (parseNote root).name)
            (jsIndexOf LETTERS (String.mk ((parseNote root).name.data.take 1)))
            ((parseNote root).octave + Int.ofNat i) mode di.1 di.2).flatten := rfl

theorem scale_shape_length (mode : ScaleMode) (k : Nat) (g : Nat → Nat × Int → String) :
    (((List.range k).map fun i => (MODES mode).enum.map fun di => g i di).flatten).length =
      (MODES mode).length * k := by
  have h : ∀ l ∈ (List.range k).map fun i => (MODES mode).enum.map fun di => g i di,
      l.length = (MODES mode).length := by
    intro l hl
    obtain ⟨i, hi, rfl⟩ := List.mem_map.mp hl
    rw [List.length_map, List.enum_length]
  rw [flatten_length_const _ _ h, List.length_map, List.length_range]

theorem scale_shape_block (mode : ScaleMode) (k : Nat) (g : Nat → Nat × Int → String)
    (hmode : mode ≠ ScaleMode.Chromatic) (i : Nat) (hik : i < k) :
    ((((List.range k).map fun j => (MODES mode).enum.map fun di => g j di).flatten.drop
      (7 * i)).take 7) = (MODES mode).enum.map fun di => g i di := by
  have h7 := MODES_length mode hmode
  have hblocks : ∀ l ∈ (List.range k).map fun j => (MODES mode).enum.map fun di => g j di,
      l.length = 7 := by
    intro l hl
    obtain ⟨j, hj, rfl⟩ := List.mem_map.mp hl
    rw [List.length_map, List.enum_length, h7]
  have hlen : i < ((List.range k).map fun j =>
      (MODES mode).enum.map fun di => g j di).length := by
    rw [List.length_map, List.length_range]
    exact hik
  rw [flatten_block _ 7 hblocks i hlen, List.getD_eq_getElem?_getD,
    List.getElem?_eq_getElem hlen, Option.getD_some, List.getElem_map, List.getElem_range]

/-- C4 (amended): for every root string, `getScaleNotes` returns `12*k` notes
in Chromatic mode and `7*k` notes in every diatonic mode; and whenever the
root's parsed name carries at most one accidental, each diatonic octave
block's seven initial letters are a permutation of C,D,E,F,G,A,B.  (Roots with
a double accidental can hit the triple-accidental spelling fallback and repeat
a letter — see the counterexample.) -/
theorem getScaleNotes_cardinality_letters (root : String) (mode : ScaleMode) (k : Nat) :
    (mode = ScaleMode.Chromatic → (getScaleNotes root mode k).length = 12 * k) ∧
    (mode ≠ ScaleMode.Chromatic →
      (getScaleNotes root mode k).length = 7 * k ∧
      ((parseNote root).name.length ≤ 2 →
        ∀ i < k, List.Perm ((((getScaleNotes root mode k).drop (7 * i)).take 7).map noteLetter)
          ['C', 'D', 'E', 'F', 'G', 'A', 'B'])) := by
  constructor
  · intro hc
    rw [getScaleNotes_eq, scale_shape_length, hc]
    rfl
  · intro hmode
    constructor
    · rw [getScaleNotes_eq, scale_shape_length, MODES_length mode hmode]
    · intro hroot i hik
      have hnm := parseNote_name_mem root hroot
      have hmem := mem_diatonicModesList mode hmode
      have hok := blockNames_ok (parseNote root).name hnm mode hmem
      have hne : ∀ s ∈ blockNames (getNoteIndex (parseNote root).name)
          (jsIndexOf LETTERS (String.mk ((parseNote root).name.data.take 1))) mode, s ≠ "" := by
        intro s hs
        exact of_decide_eq_true (List.all_eq_true.mp hok.1 s hs)
      rw [getScaleNotes_eq, scale_shape_block mode k _ hmode i hik]
      rw [block_letters _ _ _ mode hmode hne]
      exact hok.2

/-- Witness for C4 (amended): at root `"F#3"` (single sharp), Lydian, two
octaves, the theorem gives the 14-note cardinality and the letter permutation
of the second octave block, every hypothesis discharged concretely. -/
theorem getScaleNotes_cardinality_letters_witness :
    (getScaleNotes "F#3" ScaleMode.Lydian 2).length = 7 * 2 ∧
    List.Perm ((((getScaleNotes "F#3" ScaleMode.Lydian 2).drop (7 * 1)).take 7).map noteLetter)
      ['C', 'D', 'E', 'F', 'G', 'A', 'B'] :=
  ⟨((getScaleNotes_cardinality_letters "F#3" ScaleMode.Lydian 2).2 (by decide)).1,
   ((getScaleNotes_cardinality_letters "F#3" ScaleMode.Lydian 2).2 (by decide)).2
     (by decide) 1 (by decide)⟩

/-- C4 (counterexample): `"B##4"` is a valid root (double sharp), Lydian is
diatonic, the scale has the expected 7 notes, yet its seven initial letters are
NOT the seven letter names — the letter E never appears (G appears twice), so
the claim's "all seven letter names exactly once" fails for this valid root. -/
theorem scale_letters_counterexample :
    noteMatch "B##4" ≠ none ∧
    (getScaleNotes "B##4" ScaleMode.Lydian 1).length = 7 ∧
    ¬ List.Perm ((((getScaleNotes "B##4" ScaleMode.Lydian 1).drop (7 * 0)).take 7).map noteLetter)
      ['C', 'D', 'E', 'F', 'G', 'A', 'B'] := by
  refine ⟨by decide, by decide, by decide⟩

end MusicTheory
